import Mathlib

/-!
Shallow embedding of the TimeTagger firmware (`src/arduino.cpp`).

The firmware keeps five parallel arrays of size `MAX_PROJECTS = 10`
(`knownUIDs`, `projectNames`, `projectActive`, `projectStartTime`,
`projectAccumulatedTime`) together with `projectCount`, plus the mode flags
`pendingDeletion`, `waitingForProjectName`, the pending uid `newUID` and the
display-freeze deadline `displayFreezeUntil`.  Since every source operation
touches all five arrays at the same index in lockstep, the first
`projectCount` slots are modelled as a `List Project` of records.  The
`loop` body is modelled as a step function consuming one event (a host
serial line, or a tag scan) together with the current `millis()` value, and
producing the next state plus the emitted serial/LCD outputs (including the
blocking `delay` calls).  Time is the monotone millisecond counter of the
spec; `millis() - start` becomes truncated `Nat` subtraction.
-/

namespace TimeTagger

/-- One registered project: one slot of the five parallel arrays. -/
structure Project where
  uid : String
  name : String
  active : Bool
  startTime : Nat
  accumulated : Nat
  deriving Repr, DecidableEq, Inhabited

/-- `MAX_PROJECTS` from the source. -/
def MAX_PROJECTS : Nat := 10

/-- `ADMIN_UID` from the source. -/
def ADMIN_UID : String := "74:8a:71:16"

/-- The character class trimmed by Arduino `String::trim` (C `isspace`). -/
def isSpaceA (c : Char) : Bool :=
  c = ' ' || c = '\t' || c = '\n' || c = '\x0b' || c = '\x0c' || c = '\r'

/-- Arduino `String::trim`: strip leading and trailing whitespace. -/
def trimS (s : String) : String :=
  ⟨((s.data.dropWhile isSpaceA).reverse.dropWhile isSpaceA).reverse⟩

/-- The pause action on one slot (lines 243-246 / 256-257):
if active, fold the running session into `accumulated` and clear `active`. -/
def pauseP (now : Nat) (p : Project) : Project :=
  if p.active then
    { p with accumulated := p.accumulated + (now - p.startTime), active := false }
  else p

/-- The start action on one slot (lines 249-250). -/
def startP (now : Nat) (p : Project) : Project :=
  { p with active := true, startTime := now }

/-- "Stoppe alle laufenden Projekte" (lines 242-247): pause every active slot. -/
def pauseAll (now : Nat) : List Project → List Project
  | [] => []
  | p :: ps => pauseP now p :: pauseAll now ps

/-- Update the slot at index `i`. -/
def setAt : Nat → (Project → Project) → List Project → List Project
  | _, _, [] => []
  | 0, f, p :: ps => f p :: ps
  | n + 1, f, p :: ps => p :: setAt n f ps

/-- The compaction loop of the deletion branch (lines 197-204): shift every
later slot down by one and drop the last, i.e. erase index `i`. -/
def removeAt : Nat → List Project → List Project
  | _, [] => []
  | 0, _ :: ps => ps
  | n + 1, p :: ps => p :: removeAt n ps

/-- The linear scan for a uid (lines 227-233, and the deletion loop's
search): index of the first slot whose `uid` matches. -/
def findIdx (uid : String) : List Project → Option Nat
  | [] => none
  | p :: ps => if p.uid = uid then some 0 else (findIdx uid ps).map (· + 1)

/-- The first slot whose `uid` matches (the record the scan loops read). -/
def lookup (uid : String) : List Project → Option Project
  | [] => none
  | p :: ps => if p.uid = uid then some p else lookup uid ps

/-- `totalMs(now)` of the spec: the elapsed-time read the display loop
(line 285) and the deletion branch (lines 175-179) perform. -/
def totalMs (p : Project) (now : Nat) : Nat :=
  p.accumulated + (if p.active then now - p.startTime else 0)

/-- Serial/LCD outputs and blocking delays emitted by one loop iteration. -/
inductive Out where
  | detected (uid : String)
  | projectAdded (name uid : String)
  | capacityExceeded
  | adminToggle (armed : Bool)
  | deleted (name : String) (h m s : Nat)
  | notFound
  | started (name : String)
  | paused (name : String)
  | unknownTag (uid : String)
  | delayMs (n : Nat)
  deriving Repr, DecidableEq

/-- The firmware's global mutable state. -/
structure TState where
  projects : List Project
  pendingDeletion : Bool
  waitingForProjectName : Bool
  newUID : String
  displayFreezeUntil : Nat
  deriving Repr, DecidableEq

/-- The boot state (global initialisers, lines 44-60). -/
def boot : TState := ⟨[], false, false, "", 0⟩

/-- One external stimulus delivered to an iteration of `loop`, carrying the
current `millis()` reading. -/
inductive Event where
  | hostLine (raw : String) (now : Nat)
  | tagScan (uid : String) (now : Nat)
  deriving Repr, DecidableEq

/-- One iteration of `loop` (lines 97-278) that received the given event:
next state and emitted outputs.  A `hostLine` is consumed only while
`waitingForProjectName` (line 99); a scan first checks the admin uid
(line 150), then the deletion branch (lines 171-223), then the
start/pause/unknown branches (lines 225-274). -/
def step (s : TState) : Event → TState × List Out
  | .hostLine raw _ =>
    if s.waitingForProjectName then
      if s.projects.length < MAX_PROJECTS then
        ({ s with
            projects := s.projects ++ [⟨s.newUID, trimS raw, false, 0, 0⟩],
            waitingForProjectName := false },
         [.projectAdded (trimS raw) s.newUID, .delayMs 3000])
      else
        ({ s with waitingForProjectName := false },
         [.capacityExceeded, .delayMs 2000])
    else (s, [])
  | .tagScan uid now =>
    if uid = ADMIN_UID then
      ({ s with pendingDeletion := !s.pendingDeletion },
       [.detected uid, .adminToggle (!s.pendingDeletion), .delayMs 3000, .delayMs 1000])
    else if s.pendingDeletion then
      match findIdx uid s.projects with
      | some i =>
        let p := s.projects.getD i default
        let total := p.accumulated + (if p.active then now - p.startTime else 0)
        ({ s with projects := removeAt i s.projects, pendingDeletion := false },
         [.detected uid,
          .deleted p.name (total / 3600000) ((total / 60000) % 60) ((total / 1000) % 60),
          .delayMs 3000, .delayMs 1000])
      | none =>
        ({ s with pendingDeletion := false },
         [.detected uid, .notFound, .delayMs 2000, .delayMs 1000])
    else
      match findIdx uid s.projects with
      | some i =>
        let p := s.projects.getD i default
        if !p.active then
          ({ s with
              projects := setAt i (startP now) (pauseAll now s.projects),
              displayFreezeUntil := now + 3000 },
           [.detected uid, .started p.name, .delayMs 1000])
        else
          ({ s with
              projects := setAt i (pauseP now) s.projects,
              displayFreezeUntil := now + 3000 },
           [.detected uid, .paused p.name, .delayMs 1000])
      | none =>
        ({ s with newUID := uid, waitingForProjectName := true },
         [.detected uid, .unknownTag uid, .delayMs 1000])

/-- States the firmware can reach from boot under some event sequence. -/
inductive Reachable : TState → Prop
  | init : Reachable boot
  | next : ∀ s e, Reachable s → Reachable (step s e).1

/-- Number of active slots (the quantity of invariant I1). -/
def activeCount : List Project → Nat
  | [] => 0
  | p :: ps => (if p.active then 1 else 0) + activeCount ps

/-! ### Characterisation of the branches of `step` -/

theorem step_hostLine_add (s : TState) (raw : String) (now : Nat)
    (hw : s.waitingForProjectName = true) (hlen : s.projects.length < MAX_PROJECTS) :
    step s (.hostLine raw now) =
      ({ s with
          projects := s.projects ++ [⟨s.newUID, trimS raw, false, 0, 0⟩],
          waitingForProjectName := false },
       [.projectAdded (trimS raw) s.newUID, .delayMs 3000]) := by
  simp [step, hw, hlen]

theorem step_hostLine_full (s : TState) (raw : String) (now : Nat)
    (hw : s.waitingForProjectName = true) (hlen : ¬ s.projects.length < MAX_PROJECTS) :
    step s (.hostLine raw now) =
      ({ s with waitingForProjectName := false },
       [.capacityExceeded, .delayMs 2000]) := by
  simp [step, hw, hlen]

theorem step_hostLine_idle (s : TState) (raw : String) (now : Nat)
    (hw : s.waitingForProjectName = false) :
    step s (.hostLine raw now) = (s, []) := by
  simp [step, hw]

theorem step_tag_admin (s : TState) (uid : String) (now : Nat)
    (hadm : uid = ADMIN_UID) :
    step s (.tagScan uid now) =
      ({ s with pendingDeletion := !s.pendingDeletion },
       [.detected uid, .adminToggle (!s.pendingDeletion), .delayMs 3000, .delayMs 1000]) := by
  simp [step, hadm]

theorem step_tag_delete_found (s : TState) (uid : String) (now i : Nat)
    (hadm : uid ≠ ADMIN_UID) (hpd : s.pendingDeletion = true)
    (hf : findIdx uid s.projects = some i) :
    step s (.tagScan uid now) =
      (let p := s.projects.getD i default
       let total := p.accumulated + (if p.active then now - p.startTime else 0)
       ({ s with projects := removeAt i s.projects, pendingDeletion := false },
        [.detected uid,
         .deleted p.name (total / 3600000) ((total / 60000) % 60) ((total / 1000) % 60),
         .delayMs 3000, .delayMs 1000])) := by
  simp [step, hadm, hpd, hf]

theorem step_tag_delete_notfound (s : TState) (uid : String) (now : Nat)
    (hadm : uid ≠ ADMIN_UID) (hpd : s.pendingDeletion = true)
    (hf : findIdx uid s.projects = none) :
    step s (.tagScan uid now) =
      ({ s with pendingDeletion := false },
       [.detected uid, .notFound, .delayMs 2000, .delayMs 1000]) := by
  simp [step, hadm, hpd, hf]

theorem step_tag_start (s : TState) (uid : String) (now i : Nat)
    (hadm : uid ≠ ADMIN_UID) (hpd : s.pendingDeletion = false)
    (hf : findIdx uid s.projects = some i)
    (hact : (s.projects.getD i default).active = false) :
    step s (.tagScan uid now) =
      ({ s with
          projects := setAt i (startP now) (pauseAll now s.projects),
          displayFreezeUntil := now + 3000 },
       [.detected uid, .started (s.projects.getD i default).name, .delayMs 1000]) := by
  simp [step, hadm, hpd, hf]
  simpa using hact

theorem step_tag_pause (s : TState) (uid : String) (now i : Nat)
    (hadm : uid ≠ ADMIN_UID) (hpd : s.pendingDeletion = false)
    (hf : findIdx uid s.projects = some i)
    (hact : (s.projects.getD i default).active = true) :
    step s (.tagScan uid now) =
      ({ s with
          projects := setAt i (pauseP now) s.projects,
          displayFreezeUntil := now + 3000 },
       [.detected uid, .paused (s.projects.getD i default).name, .delayMs 1000]) := by
  simp [step, hadm, hpd, hf]
  simpa using hact

theorem step_tag_unknown (s : TState) (uid : String) (now : Nat)
    (hadm : uid ≠ ADMIN_UID) (hpd : s.pendingDeletion = false)
    (hf : findIdx uid s.projects = none) :
    step s (.tagScan uid now) =
      ({ s with newUID := uid, waitingForProjectName := true },
       [.detected uid, .unknownTag uid, .delayMs 1000]) := by
  simp [step, hadm, hpd, hf]

/-! ### Field-level facts about the slot actions -/

theorem pauseP_active (now : Nat) (p : Project) : (pauseP now p).active = false := by
  cases h : p.active <;> simp [pauseP, h]

theorem pauseP_uid (now : Nat) (p : Project) : (pauseP now p).uid = p.uid := by
  cases h : p.active <;> simp [pauseP, h]

theorem pauseP_accumulated (now : Nat) (p : Project) :
    (pauseP now p).accumulated =
      p.accumulated + (if p.active then now - p.startTime else 0) := by
  cases h : p.active <;> simp [pauseP, h]

theorem pauseP_acc_le (now : Nat) (p : Project) :
    p.accumulated ≤ (pauseP now p).accumulated := by
  cases h : p.active <;> simp [pauseP, h]

theorem startP_uid (now : Nat) (p : Project) : (startP now p).uid = p.uid := rfl

theorem startP_accumulated (now : Nat) (p : Project) :
    (startP now p).accumulated = p.accumulated := rfl

/-! ### Length and indexing facts for the registry operations -/

theorem length_pauseAll (now : Nat) (ps : List Project) :
    (pauseAll now ps).length = ps.length := by
  induction ps with
  | nil => rfl
  | cons p ps ih => simp [pauseAll, ih]

theorem length_setAt (i : Nat) (f : Project → Project) (ps : List Project) :
    (setAt i f ps).length = ps.length := by
  induction ps generalizing i with
  | nil => cases i <;> rfl
  | cons p ps ih => cases i <;> simp [setAt, ih]

theorem length_removeAt (i : Nat) (ps : List Project) (h : i < ps.length) :
    (removeAt i ps).length + 1 = ps.length := by
  induction ps generalizing i with
  | nil => simp at h
  | cons p ps ih =>
    cases i with
    | zero => simp [removeAt]
    | succ n =>
      have := ih n (by simpa using h)
      simp [removeAt]
      omega

theorem length_removeAt_le (i : Nat) (ps : List Project) :
    (removeAt i ps).length ≤ ps.length := by
  induction ps generalizing i with
  | nil => simp [removeAt]
  | cons p ps ih =>
    cases i with
    | zero => simp [removeAt]
    | succ n =>
      have := ih n
      simp [removeAt]
      omega

theorem getD_pauseAll (now : Nat) (ps : List Project) (j : Nat) (d : Project)
    (h : j < ps.length) :
    (pauseAll now ps).getD j d = pauseP now (ps.getD j d) := by
  induction ps generalizing j with
  | nil => simp at h
  | cons p ps ih =>
    cases j with
    | zero => simp [pauseAll]
    | succ n =>
      simp only [pauseAll, List.getD_cons_succ]
      exact ih n (by simpa using h)

theorem getD_setAt_self (i : Nat) (f : Project → Project) (ps : List Project) (d : Project)
    (h : i < ps.length) :
    (setAt i f ps).getD i d = f (ps.getD i d) := by
  induction ps generalizing i with
  | nil => simp at h
  | cons p ps ih =>
    cases i with
    | zero => simp [setAt]
    | succ n =>
      simp only [setAt, List.getD_cons_succ]
      exact ih n (by simpa using h)

theorem getD_setAt_ne (i j : Nat) (f : Project → Project) (ps : List Project) (d : Project)
    (hne : j ≠ i) :
    (setAt i f ps).getD j d = ps.getD j d := by
  induction ps generalizing i j with
  | nil => cases i <;> rfl
  | cons p ps ih =>
    cases i with
    | zero =>
      cases j with
      | zero => exact absurd rfl hne
      | succ m => simp [setAt]
    | succ n =>
      cases j with
      | zero => simp [setAt]
      | succ m =>
        simp only [setAt, List.getD_cons_succ]
        exact ih n m (by omega)

theorem getD_removeAt_lt (i j : Nat) (ps : List Project) (d : Project) (h : j < i) :
    (removeAt i ps).getD j d = ps.getD j d := by
  induction ps generalizing i j with
  | nil => cases i <;> rfl
  | cons p ps ih =>
    cases i with
    | zero => omega
    | succ n =>
      cases j with
      | zero => simp [removeAt]
      | succ m =>
        simp only [removeAt, List.getD_cons_succ]
        exact ih n m (by omega)

theorem getD_removeAt_ge (i j : Nat) (ps : List Project) (d : Project) (h : i ≤ j) :
    (removeAt i ps).getD j d = ps.getD (j + 1) d := by
  induction ps generalizing i j with
  | nil => cases i <;> rfl
  | cons p ps ih =>
    cases i with
    | zero => simp [removeAt]
    | succ n =>
      cases j with
      | zero => omega
      | succ m =>
        simp only [removeAt, List.getD_cons_succ]
        exact ih n m (by omega)

theorem removeAt_sublist (i : Nat) (ps : List Project) :
    List.Sublist (removeAt i ps) ps := by
  induction ps generalizing i with
  | nil => simp [removeAt]
  | cons p ps ih =>
    cases i with
    | zero =>
      simp only [removeAt]
      exact List.sublist_cons_self p ps
    | succ n =>
      simp only [removeAt]
      exact List.Sublist.cons₂ p (ih n)

/-! ### `activeCount` under the registry operations -/

theorem activeCount_append (ps qs : List Project) :
    activeCount (ps ++ qs) = activeCount ps + activeCount qs := by
  induction ps with
  | nil => simp [activeCount]
  | cons p ps ih =>
    simp [activeCount, ih]
    omega

theorem activeCount_pauseAll (now : Nat) (ps : List Project) :
    activeCount (pauseAll now ps) = 0 := by
  induction ps with
  | nil => rfl
  | cons p ps ih => simp [pauseAll, activeCount, pauseP_active, ih]

theorem activeCount_setAt_le (i : Nat) (f : Project → Project) (ps : List Project) :
    activeCount (setAt i f ps) ≤ activeCount ps + 1 := by
  induction ps generalizing i with
  | nil => cases i <;> simp [setAt, activeCount]
  | cons p ps ih =>
    cases i with
    | zero =>
      simp only [setAt, activeCount]
      split <;> split <;> omega
    | succ n =>
      have := ih n
      simp only [setAt, activeCount]
      omega

theorem activeCount_setAt_inactive_le (i : Nat) (f : Project → Project) (ps : List Project)
    (hf : ∀ p, (f p).active = false) :
    activeCount (setAt i f ps) ≤ activeCount ps := by
  induction ps generalizing i with
  | nil => cases i <;> simp [setAt]
  | cons p ps ih =>
    cases i with
    | zero =>
      have h0 : activeCount (setAt 0 f (p :: ps)) = activeCount ps := by
        simp [setAt, activeCount, hf p]
      rw [h0]
      simp only [activeCount]
      split <;> omega
    | succ n =>
      have := ih n
      simp only [setAt, activeCount]
      omega

theorem activeCount_removeAt_le (i : Nat) (ps : List Project) :
    activeCount (removeAt i ps) ≤ activeCount ps := by
  induction ps generalizing i with
  | nil => cases i <;> simp [removeAt]
  | cons p ps ih =>
    cases i with
    | zero =>
      simp only [removeAt, activeCount]
      omega
    | succ n =>
      have := ih n
      simp only [removeAt, activeCount]
      omega

/-! ### The registered uids under the registry operations -/

theorem map_uid_pauseAll (now : Nat) (ps : List Project) :
    (pauseAll now ps).map Project.uid = ps.map Project.uid := by
  induction ps with
  | nil => rfl
  | cons p ps ih => simp [pauseAll, pauseP_uid, ih]

theorem map_uid_setAt (i : Nat) (f : Project → Project) (ps : List Project)
    (hf : ∀ p, (f p).uid = p.uid) :
    (setAt i f ps).map Project.uid = ps.map Project.uid := by
  induction ps generalizing i with
  | nil => cases i <;> rfl
  | cons p ps ih =>
    cases i with
    | zero => simp [setAt, hf]
    | succ n => simp [setAt, ih]

/-! ### `lookup` and `findIdx` -/

theorem lookup_eq_none_iff (u : String) (ps : List Project) :
    lookup u ps = none ↔ u ∉ ps.map Project.uid := by
  induction ps with
  | nil => simp [lookup]
  | cons p ps ih =>
    by_cases h : p.uid = u
    · simp [lookup, h]
    · simp [lookup, h, ih, Ne.symm h]

theorem lookup_mem (u : String) (ps : List Project) (p : Project)
    (h : lookup u ps = some p) : p ∈ ps ∧ p.uid = u := by
  induction ps with
  | nil => simp [lookup] at h
  | cons q ps ih =>
    by_cases hq : q.uid = u
    · simp [lookup, hq] at h
      subst h
      exact ⟨List.mem_cons_self q ps, hq⟩
    · simp [lookup, hq] at h
      obtain ⟨hm, hu⟩ := ih h
      exact ⟨List.mem_cons_of_mem q hm, hu⟩

theorem lookup_append_left (u : String) (ps qs : List Project) (p : Project)
    (h : lookup u ps = some p) : lookup u (ps ++ qs) = some p := by
  induction ps with
  | nil => simp [lookup] at h
  | cons q ps ih =>
    by_cases hq : q.uid = u
    · simp [lookup, hq] at h ⊢
      exact h
    · simp [lookup, hq] at h ⊢
      exact ih h

theorem lookup_pauseAll (u : String) (now : Nat) (ps : List Project) :
    lookup u (pauseAll now ps) = (lookup u ps).map (pauseP now) := by
  induction ps with
  | nil => rfl
  | cons p ps ih =>
    by_cases h : p.uid = u
    · simp [pauseAll, lookup, pauseP_uid, h]
    · simp [pauseAll, lookup, pauseP_uid, h, ih]

theorem lookup_setAt (u : String) (i : Nat) (f : Project → Project) (ps : List Project)
    (q : Project) (hf : ∀ p, (f p).uid = p.uid)
    (h : lookup u (setAt i f ps) = some q) :
    ∃ p, lookup u ps = some p ∧ (q = p ∨ q = f p) := by
  induction ps generalizing i with
  | nil =>
    cases i <;> simp [setAt, lookup] at h
  | cons p ps ih =>
    cases i with
    | zero =>
      by_cases hp : p.uid = u
      · simp [setAt, lookup, hf p, hp] at h
        exact ⟨p, by simp [lookup, hp], Or.inr h.symm⟩
      · simp only [setAt, lookup, hf p] at h
        rw [if_neg hp] at h
        refine ⟨q, ?_, Or.inl rfl⟩
        simp only [lookup]
        rw [if_neg hp]
        exact h
    | succ n =>
      by_cases hp : p.uid = u
      · simp [setAt, lookup, hp] at h
        exact ⟨p, by simp [lookup, hp], Or.inl h.symm⟩
      · simp only [setAt, lookup] at h ⊢
        rw [if_neg hp] at h
        rw [if_neg hp]
        exact ih n h

theorem mem_uid_inj (ps : List Project) (h : (ps.map Project.uid).Nodup)
    (p q : Project) (hp : p ∈ ps) (hq : q ∈ ps) (huid : p.uid = q.uid) : p = q :=
  List.inj_on_of_nodup_map h hp hq huid

theorem lookup_removeAt (u : String) (i : Nat) (ps : List Project) (p q : Project)
    (hnd : (ps.map Project.uid).Nodup)
    (hp : lookup u ps = some p) (hq : lookup u (removeAt i ps) = some q) : q = p := by
  obtain ⟨hqmem, hquid⟩ := lookup_mem u _ q hq
  obtain ⟨hpmem, hpuid⟩ := lookup_mem u _ p hp
  exact mem_uid_inj ps hnd q p ((removeAt_sublist i ps).subset hqmem) hpmem
    (hquid.trans hpuid.symm)

theorem findIdx_eq_none_iff (u : String) (ps : List Project) :
    findIdx u ps = none ↔ u ∉ ps.map Project.uid := by
  induction ps with
  | nil => simp [findIdx]
  | cons p ps ih =>
    by_cases h : p.uid = u
    · simp [findIdx, h]
    · simp [findIdx, h, ih, Ne.symm h]

theorem findIdx_some_lt (u : String) (ps : List Project) (i : Nat)
    (h : findIdx u ps = some i) : i < ps.length := by
  induction ps generalizing i with
  | nil => simp [findIdx] at h
  | cons p ps ih =>
    by_cases hp : p.uid = u
    · simp [findIdx, hp] at h
      simp only [List.length_cons]
      omega
    · simp [findIdx, hp] at h
      obtain ⟨j, hj, rfl⟩ := h
      have := ih j hj
      simp only [List.length_cons]
      omega

theorem findIdx_getD_lookup (u : String) (ps : List Project) (i : Nat)
    (h : findIdx u ps = some i) :
    lookup u ps = some (ps.getD i default) := by
  induction ps generalizing i with
  | nil => simp [findIdx] at h
  | cons p ps ih =>
    by_cases hp : p.uid = u
    · simp [findIdx, hp] at h
      subst h
      simp [lookup, hp]
    · simp [findIdx, hp] at h
      obtain ⟨j, hj, rfl⟩ := h
      simp only [lookup, List.getD_cons_succ]
      rw [if_neg hp]
      exact ih j hj

theorem findIdx_getD_uid (u : String) (ps : List Project) (i : Nat)
    (h : findIdx u ps = some i) : (ps.getD i default).uid = u :=
  (lookup_mem u ps _ (findIdx_getD_lookup u ps i h)).2

/-! ### The state invariant and its preservation -/

/-- The firmware's state invariant: at most one active slot (I1), unique
uids (I3), a pending uid is never already registered, and the registry
never exceeds `MAX_PROJECTS` (I5). -/
structure Inv (s : TState) : Prop where
  one : activeCount s.projects ≤ 1
  nodup : (s.projects.map Project.uid).Nodup
  fresh : s.waitingForProjectName = true → s.newUID ∉ s.projects.map Project.uid
  cap : s.projects.length ≤ MAX_PROJECTS

theorem inv_boot : Inv boot := by
  refine ⟨?_, ?_, ?_, ?_⟩ <;> simp [boot, activeCount, MAX_PROJECTS]

theorem inv_step (s : TState) (e : Event) (h : Inv s) : Inv (step s e).1 := by
  cases e with
  | hostLine raw now =>
    by_cases hw : s.waitingForProjectName = true
    · by_cases hlen : s.projects.length < MAX_PROJECTS
      · rw [step_hostLine_add s raw now hw hlen]
        refine ⟨?_, ?_, ?_, ?_⟩
        · have h1 := h.one
          simp [activeCount_append, activeCount]
          omega
        · simp [List.nodup_append, h.nodup, h.fresh hw]
        · simp
        · have := h.cap
          simp [MAX_PROJECTS] at hlen ⊢
          omega
      · rw [step_hostLine_full s raw now hw hlen]
        exact ⟨h.one, h.nodup, by simp, h.cap⟩
    · rw [step_hostLine_idle s raw now (by simpa using hw)]
      exact h
  | tagScan uid now =>
    by_cases hadm : uid = ADMIN_UID
    · rw [step_tag_admin s uid now hadm]
      exact ⟨h.one, h.nodup, h.fresh, h.cap⟩
    · by_cases hpd : s.pendingDeletion = true
      · cases hf : findIdx uid s.projects with
        | some i =>
          rw [step_tag_delete_found s uid now i hadm hpd hf]
          refine ⟨?_, ?_, ?_, ?_⟩
          · exact le_trans (activeCount_removeAt_le i s.projects) h.one
          · exact h.nodup.sublist ((removeAt_sublist i s.projects).map Project.uid)
          · intro hw' hmem
            exact h.fresh hw'
              (((removeAt_sublist i s.projects).map Project.uid).subset hmem)
          · exact le_trans (length_removeAt_le i s.projects) h.cap
        | none =>
          rw [step_tag_delete_notfound s uid now hadm hpd hf]
          exact ⟨h.one, h.nodup, h.fresh, h.cap⟩
      · have hpd' : s.pendingDeletion = false := by simpa using hpd
        cases hf : findIdx uid s.projects with
        | some i =>
          cases hact : (s.projects.getD i default).active with
          | false =>
            rw [step_tag_start s uid now i hadm hpd' hf hact]
            refine ⟨?_, ?_, ?_, ?_⟩
            · have h1 := activeCount_setAt_le i (startP now) (pauseAll now s.projects)
              have h2 := activeCount_pauseAll now s.projects
              show activeCount (setAt i (startP now) (pauseAll now s.projects)) ≤ 1
              omega
            · show ((setAt i (startP now) (pauseAll now s.projects)).map Project.uid).Nodup
              rw [map_uid_setAt i (startP now) _ (startP_uid now),
                map_uid_pauseAll now s.projects]
              exact h.nodup
            · intro hw'
              show s.newUID ∉ (setAt i (startP now) (pauseAll now s.projects)).map Project.uid
              rw [map_uid_setAt i (startP now) _ (startP_uid now),
                map_uid_pauseAll now s.projects]
              exact h.fresh hw'
            · show (setAt i (startP now) (pauseAll now s.projects)).length ≤ MAX_PROJECTS
              rw [length_setAt, length_pauseAll]
              exact h.cap
          | true =>
            rw [step_tag_pause s uid now i hadm hpd' hf hact]
            refine ⟨?_, ?_, ?_, ?_⟩
            · exact le_trans
                (activeCount_setAt_inactive_le i (pauseP now) s.projects (pauseP_active now))
                h.one
            · show ((setAt i (pauseP now) s.projects).map Project.uid).Nodup
              rw [map_uid_setAt i (pauseP now) _ (pauseP_uid now)]
              exact h.nodup
            · intro hw'
              show s.newUID ∉ (setAt i (pauseP now) s.projects).map Project.uid
              rw [map_uid_setAt i (pauseP now) _ (pauseP_uid now)]
              exact h.fresh hw'
            · show (setAt i (pauseP now) s.projects).length ≤ MAX_PROJECTS
              rw [length_setAt]
              exact h.cap
        | none =>
          rw [step_tag_unknown s uid now hadm hpd' hf]
          refine ⟨h.one, h.nodup, ?_, h.cap⟩
          intro _
          exact (findIdx_eq_none_iff uid s.projects).1 hf

theorem reachable_inv (s : TState) (h : Reachable s) : Inv s := by
  induction h with
  | init => exact inv_boot
  | next s e _ ih => exact inv_step s e ih

/-! ### The claims -/

/-- Claim C1: for every finite sequence of tag-scan and host-line events
processed from the boot state, at most one registered project is active
after each event; and when a known inactive tag is scanned with the
deletion mode off, every currently active project is paused with its time
accounted (`accumulated + (now - sessionStart)`) before the scanned project
is started. -/
theorem C1_mutual_exclusion (s : TState) (hs : Reachable s) (e : Event) :
    activeCount (step s e).1.projects ≤ 1 ∧
    (∀ uid now i, e = .tagScan uid now → uid ≠ ADMIN_UID →
      s.pendingDeletion = false → findIdx uid s.projects = some i →
      (s.projects.getD i default).active = false →
      ((step s e).1.projects.getD i default).active = true ∧
      ∀ j, j < s.projects.length → j ≠ i →
        ((step s e).1.projects.getD j default).active = false ∧
        ((step s e).1.projects.getD j default).accumulated =
          (s.projects.getD j default).accumulated +
            (if (s.projects.getD j default).active then
              now - (s.projects.getD j default).startTime else 0)) := by
  constructor
  · exact (reachable_inv _ (Reachable.next s e hs)).one
  · rintro uid now i rfl hadm hpd hf hact
    rw [step_tag_start s uid now i hadm hpd hf hact]
    have hi : i < s.projects.length := findIdx_some_lt uid s.projects i hf
    have hi' : i < (pauseAll now s.projects).length := by
      rw [length_pauseAll]
      exact hi
    constructor
    · show ((setAt i (startP now) (pauseAll now s.projects)).getD i default).active = true
      rw [getD_setAt_self i (startP now) _ default hi']
      rfl
    · intro j hj hji
      have hgd : (setAt i (startP now) (pauseAll now s.projects)).getD j default
          = pauseP now (s.projects.getD j default) := by
        rw [getD_setAt_ne i j (startP now) _ default hji,
          getD_pauseAll now s.projects j default hj]
      refine ⟨?_, ?_⟩
      · show ((setAt i (startP now) (pauseAll now s.projects)).getD j default).active = false
        rw [hgd]
        exact pauseP_active now _
      · show ((setAt i (startP now) (pauseAll now s.projects)).getD j default).accumulated = _
        rw [hgd]
        exact pauseP_accumulated now _

theorem C1_mutual_exclusion_witness :
    activeCount (step ((step ((step boot (.tagScan "aa:bb" 0)).1) (.hostLine "Demo" 5)).1)
      (.tagScan "aa:bb" 1000)).1.projects ≤ 1 ∧
    ((step ((step ((step boot (.tagScan "aa:bb" 0)).1) (.hostLine "Demo" 5)).1)
      (.tagScan "aa:bb" 1000)).1.projects.getD 0 default).active = true := by
  have h := C1_mutual_exclusion
    ((step ((step boot (.tagScan "aa:bb" 0)).1) (.hostLine "Demo" 5)).1)
    (Reachable.next _ _ (Reachable.next _ _ Reachable.init))
    (.tagScan "aa:bb" 1000)
  exact ⟨h.1, (h.2 "aa:bb" 1000 0 rfl (by decide) (by decide) (by decide) (by decide)).1⟩

/-- Claim C2 fails on the code: after scanning an unknown tag (entering the
awaiting-name state) and then scanning the admin tag before any host line
arrives, `waitingForProjectName` and `pendingDeletion` are simultaneously
true. -/
theorem C2_flags_counterexample :
    (step (step boot (.tagScan "aa:bb" 0)).1
      (.tagScan "74:8a:71:16" 1)).1.waitingForProjectName = true ∧
    (step (step boot (.tagScan "aa:bb" 0)).1
      (.tagScan "74:8a:71:16" 1)).1.pendingDeletion = true := by
  decide

/-- Claim C2 (amended): the only transition that enters a state with both
`waitingForProjectName` and `pendingDeletion` true is an admin-tag scan made
while a project name is awaited; every other event preserves the mutual
exclusion of the two flags. -/
theorem C2_flags_amended (s : TState) (e : Event)
    (h : ¬(s.waitingForProjectName = true ∧ s.pendingDeletion = true))
    (h2 : (step s e).1.waitingForProjectName = true ∧
      (step s e).1.pendingDeletion = true) :
    s.waitingForProjectName = true ∧ ∃ now, e = .tagScan ADMIN_UID now := by
  cases e with
  | hostLine raw now =>
    by_cases hw : s.waitingForProjectName = true
    · by_cases hlen : s.projects.length < MAX_PROJECTS
      · rw [step_hostLine_add s raw now hw hlen] at h2
        simp at h2
      · rw [step_hostLine_full s raw now hw hlen] at h2
        simp at h2
    · rw [step_hostLine_idle s raw now (by simpa using hw)] at h2
      exact absurd h2 h
  | tagScan uid now =>
    by_cases hadm : uid = ADMIN_UID
    · rw [step_tag_admin s uid now hadm] at h2
      exact ⟨h2.1, now, by rw [hadm]⟩
    · by_cases hpd : s.pendingDeletion = true
      · cases hf : findIdx uid s.projects with
        | some i =>
          rw [step_tag_delete_found s uid now i hadm hpd hf] at h2
          simp at h2
        | none =>
          rw [step_tag_delete_notfound s uid now hadm hpd hf] at h2
          simp at h2
      · have hpd' : s.pendingDeletion = false := by simpa using hpd
        cases hf : findIdx uid s.projects with
        | some i =>
          cases hact : (s.projects.getD i default).active with
          | false =>
            rw [step_tag_start s uid now i hadm hpd' hf hact] at h2
            exact absurd h2.2 hpd
          | true =>
            rw [step_tag_pause s uid now i hadm hpd' hf hact] at h2
            exact absurd h2.2 hpd
        | none =>
          rw [step_tag_unknown s uid now hadm hpd' hf] at h2
          exact absurd h2.2 hpd

theorem C2_flags_amended_witness :
    (step boot (.tagScan "aa:bb" 0)).1.waitingForProjectName = true ∧
    ∃ now, Event.tagScan "74:8a:71:16" 1 = .tagScan ADMIN_UID now :=
  C2_flags_amended ((step boot (.tagScan "aa:bb" 0)).1) (.tagScan "74:8a:71:16" 1)
    (by decide) (by decide)

/-- Claim C3: `totalMs` is non-decreasing in `now`; pausing at `now` and
immediately reading `totalMs` yields the value read the instant before
pausing; and across every step taken from a reachable state, the
`accumulated` field of the project registered under a given uid never
decreases. -/
theorem C3_time_conservation :
    (∀ (p : Project) (n1 n2 : Nat), n1 ≤ n2 → totalMs p n1 ≤ totalMs p n2) ∧
    (∀ (p : Project) (now : Nat), p.active = true →
      ∀ t, totalMs (pauseP now p) t = totalMs p now) ∧
    (∀ (s : TState) (e : Event) (u : String) (p q : Project), Reachable s →
      lookup u s.projects = some p → lookup u (step s e).1.projects = some q →
      p.accumulated ≤ q.accumulated) := by
  refine ⟨?_, ?_, ?_⟩
  · intro p n1 n2 h
    unfold totalMs
    cases hact : p.active with
    | false => simp
    | true =>
      simp only [if_true, ite_true]
      exact Nat.add_le_add_left (Nat.sub_le_sub_right h p.startTime) p.accumulated
  · intro p now hact t
    simp [totalMs, pauseP, hact]
  · intro s e u p q hs hp hq
    have hinv := reachable_inv s hs
    cases e with
    | hostLine raw now =>
      by_cases hw : s.waitingForProjectName = true
      · by_cases hlen : s.projects.length < MAX_PROJECTS
        · have hproj : (step s (.hostLine raw now)).1.projects =
              s.projects ++ [⟨s.newUID, trimS raw, false, 0, 0⟩] := by
            rw [step_hostLine_add s raw now hw hlen]
          rw [hproj, lookup_append_left u s.projects _ p hp] at hq
          exact le_of_eq (congrArg Project.accumulated (Option.some.inj hq))
        · have hproj : (step s (.hostLine raw now)).1.projects = s.projects := by
            rw [step_hostLine_full s raw now hw hlen]
          rw [hproj, hp] at hq
          exact le_of_eq (congrArg Project.accumulated (Option.some.inj hq))
      · have hproj : (step s (.hostLine raw now)).1.projects = s.projects := by
          rw [step_hostLine_idle s raw now (by simpa using hw)]
        rw [hproj, hp] at hq
        exact le_of_eq (congrArg Project.accumulated (Option.some.inj hq))
    | tagScan uid now =>
      by_cases hadm : uid = ADMIN_UID
      · have hproj : (step s (.tagScan uid now)).1.projects = s.projects := by
          rw [step_tag_admin s uid now hadm]
        rw [hproj, hp] at hq
        exact le_of_eq (congrArg Project.accumulated (Option.some.inj hq))
      · by_cases hpd : s.pendingDeletion = true
        · cases hf : findIdx uid s.projects with
          | some i =>
            have hproj : (step s (.tagScan uid now)).1.projects =
                removeAt i s.projects := by
              rw [step_tag_delete_found s uid now i hadm hpd hf]
            rw [hproj] at hq
            exact le_of_eq
              (congrArg Project.accumulated
                (lookup_removeAt u i s.projects p q hinv.nodup hp hq).symm)
          | none =>
            have hproj : (step s (.tagScan uid now)).1.projects = s.projects := by
              rw [step_tag_delete_notfound s uid now hadm hpd hf]
            rw [hproj, hp] at hq
            exact le_of_eq (congrArg Project.accumulated (Option.some.inj hq))
        · have hpd' : s.pendingDeletion = false := by simpa using hpd
          cases hf : findIdx uid s.projects with
          | some i =>
            cases hact : (s.projects.getD i default).active with
            | false =>
              have hproj : (step s (.tagScan uid now)).1.projects =
                  setAt i (startP now) (pauseAll now s.projects) := by
                rw [step_tag_start s uid now i hadm hpd' hf hact]
              rw [hproj] at hq
              obtain ⟨p1, hp1, hqe⟩ :=
                lookup_setAt u i (startP now) (pauseAll now s.projects) q
                  (startP_uid now) hq
              rw [lookup_pauseAll u now s.projects, hp] at hp1
              have hp1' : p1 = pauseP now p := (Option.some.inj hp1).symm
              subst hp1'
              rcases hqe with rfl | rfl
              · exact pauseP_acc_le now p
              · rw [startP_accumulated]
                exact pauseP_acc_le now p
            | true =>
              have hproj : (step s (.tagScan uid now)).1.projects =
                  setAt i (pauseP now) s.projects := by
                rw [step_tag_pause s uid now i hadm hpd' hf hact]
              rw [hproj] at hq
              obtain ⟨p1, hp1, hqe⟩ :=
                lookup_setAt u i (pauseP now) s.projects q (pauseP_uid now) hq
              rw [hp] at hp1
              obtain rfl : p = p1 := Option.some.inj hp1
              rcases hqe with rfl | rfl
              · exact le_refl _
              · exact pauseP_acc_le now p
          | none =>
            have hproj : (step s (.tagScan uid now)).1.projects = s.projects := by
              rw [step_tag_unknown s uid now hadm hpd' hf]
            rw [hproj, hp] at hq
            exact le_of_eq (congrArg Project.accumulated (Option.some.inj hq))

theorem C3_time_conservation_witness :
    totalMs ⟨"x", "n", true, 2000, 2000⟩ 3000 ≤ totalMs ⟨"x", "n", true, 2000, 2000⟩ 5000 ∧
    totalMs (pauseP 5000 ⟨"x", "n", true, 2000, 2000⟩) 5000
      = totalMs ⟨"x", "n", true, 2000, 2000⟩ 5000 ∧
    Project.accumulated ⟨"aa:bb", "Demo", false, 0, 0⟩
      ≤ Project.accumulated ⟨"aa:bb", "Demo", true, 1000, 0⟩ :=
  ⟨C3_time_conservation.1 ⟨"x", "n", true, 2000, 2000⟩ 3000 5000 (by decide),
   C3_time_conservation.2.1 ⟨"x", "n", true, 2000, 2000⟩ 5000 rfl 5000,
   C3_time_conservation.2.2
     ((step ((step boot (.tagScan "aa:bb" 0)).1) (.hostLine "Demo" 5)).1)
     (.tagScan "aa:bb" 1000) "aa:bb" ⟨"aa:bb", "Demo", false, 0, 0⟩
     ⟨"aa:bb", "Demo", true, 1000, 0⟩
     (Reachable.next _ _ (Reachable.next _ _ Reachable.init))
     (by decide) (by decide)⟩

/-- Claim C4: deleting the found slot at index `i` decrements the registry
size by exactly one, leaves every earlier entry unchanged (all five fields,
its `tagId` in particular), and shifts every later entry down by one
position, preserving relative order. -/
theorem C4_removal_compaction (s : TState) (uid : String) (now i : Nat)
    (hadm : uid ≠ ADMIN_UID) (hpd : s.pendingDeletion = true)
    (hf : findIdx uid s.projects = some i) :
    (step s (.tagScan uid now)).1.projects.length + 1 = s.projects.length ∧
    (∀ j, j < i → (step s (.tagScan uid now)).1.projects.getD j default
      = s.projects.getD j default) ∧
    (∀ j, i ≤ j → (step s (.tagScan uid now)).1.projects.getD j default
      = s.projects.getD (j + 1) default) := by
  have hproj : (step s (.tagScan uid now)).1.projects = removeAt i s.projects := by
    rw [step_tag_delete_found s uid now i hadm hpd hf]
  rw [hproj]
  exact ⟨length_removeAt i s.projects (findIdx_some_lt uid s.projects i hf),
    fun j hj => getD_removeAt_lt i j s.projects default hj,
    fun j hj => getD_removeAt_ge i j s.projects default hj⟩

theorem C4_removal_compaction_witness :
    (step ⟨[⟨"11:11", "A", false, 0, 5⟩, ⟨"22:22", "B", false, 0, 7⟩],
        true, false, "", 0⟩ (.tagScan "11:11" 9)).1.projects.length + 1 = 2 ∧
    (∀ j, j < 0 →
      (step ⟨[⟨"11:11", "A", false, 0, 5⟩, ⟨"22:22", "B", false, 0, 7⟩],
        true, false, "", 0⟩ (.tagScan "11:11" 9)).1.projects.getD j default
      = [⟨"11:11", "A", false, 0, 5⟩, ⟨"22:22", "B", false, 0, 7⟩].getD j default) ∧
    (∀ j, 0 ≤ j →
      (step ⟨[⟨"11:11", "A", false, 0, 5⟩, ⟨"22:22", "B", false, 0, 7⟩],
        true, false, "", 0⟩ (.tagScan "11:11" 9)).1.projects.getD j default
      = [⟨"11:11", "A", false, 0, 5⟩, ⟨"22:22", "B", false, 0, 7⟩].getD (j + 1) default) :=
  C4_removal_compaction
    ⟨[⟨"11:11", "A", false, 0, 5⟩, ⟨"22:22", "B", false, 0, 7⟩], true, false, "", 0⟩
    "11:11" 9 0 (by decide) rfl (by decide)

/-- Claim C5: scanning a registered tag in deletion-armed mode at time `now`
reports `accumulatedMs` plus, if the entry is active, `now - sessionStart`
(i.e. `totalMs`), formatted as `total/3600000` hours, `(total/60000) % 60`
minutes, `(total/1000) % 60` seconds; the entry is removed and the mode
returns to Idle. -/
theorem C5_deletion_report (s : TState) (uid : String) (now i : Nat)
    (hadm : uid ≠ ADMIN_UID) (hpd : s.pendingDeletion = true)
    (hf : findIdx uid s.projects = some i) :
    (step s (.tagScan uid now)).2 =
      [.detected uid,
       .deleted (s.projects.getD i default).name
         (totalMs (s.projects.getD i default) now / 3600000)
         ((totalMs (s.projects.getD i default) now / 60000) % 60)
         ((totalMs (s.projects.getD i default) now / 1000) % 60),
       .delayMs 3000, .delayMs 1000] ∧
    (step s (.tagScan uid now)).1.projects = removeAt i s.projects ∧
    (step s (.tagScan uid now)).1.pendingDeletion = false := by
  rw [step_tag_delete_found s uid now i hadm hpd hf]
  exact ⟨rfl, rfl, rfl⟩

theorem C5_deletion_report_witness :
    (step ⟨[⟨"11:11", "A", true, 2000, 2000⟩], true, false, "", 0⟩
      (.tagScan "11:11" 5000)).2 =
      [.detected "11:11", .deleted "A" 0 0 5, .delayMs 3000, .delayMs 1000] ∧
    (step ⟨[⟨"11:11", "A", true, 2000, 2000⟩], true, false, "", 0⟩
      (.tagScan "11:11" 5000)).1.projects = [] ∧
    (step ⟨[⟨"11:11", "A", true, 2000, 2000⟩], true, false, "", 0⟩
      (.tagScan "11:11" 5000)).1.pendingDeletion = false := by
  have h := C5_deletion_report ⟨[⟨"11:11", "A", true, 2000, 2000⟩], true, false, "", 0⟩
    "11:11" 5000 0 (by decide) rfl (by decide)
  refine ⟨?_, ?_, h.2.2⟩
  · rw [h.1]
    decide
  · rw [h.2.1]
    rfl

/-- Claim C6: a host name line arriving while awaiting a project name with
the registry at its maximum of 10 entries is rejected without mutating the
registry: the state changes only by clearing `waitingForProjectName`, and a
capacity-exceeded message is emitted. -/
theorem C6_capacity_rejection (s : TState) (raw : String) (now : Nat)
    (hw : s.waitingForProjectName = true)
    (hlen : s.projects.length = MAX_PROJECTS) :
    step s (.hostLine raw now) =
      ({ s with waitingForProjectName := false },
       [.capacityExceeded, .delayMs 2000]) :=
  step_hostLine_full s raw now hw (by simp [hlen])

theorem C6_capacity_rejection_witness :
    step ⟨[⟨"u0", "p0", false, 0, 0⟩, ⟨"u1", "p1", false, 0, 0⟩,
        ⟨"u2", "p2", false, 0, 0⟩, ⟨"u3", "p3", false, 0, 0⟩,
        ⟨"u4", "p4", false, 0, 0⟩, ⟨"u5", "p5", false, 0, 0⟩,
        ⟨"u6", "p6", false, 0, 0⟩, ⟨"u7", "p7", false, 0, 0⟩,
        ⟨"u8", "p8", false, 0, 0⟩, ⟨"u9", "p9", false, 0, 0⟩],
        false, true, "zz", 0⟩ (.hostLine "New" 42) =
      (⟨[⟨"u0", "p0", false, 0, 0⟩, ⟨"u1", "p1", false, 0, 0⟩,
        ⟨"u2", "p2", false, 0, 0⟩, ⟨"u3", "p3", false, 0, 0⟩,
        ⟨"u4", "p4", false, 0, 0⟩, ⟨"u5", "p5", false, 0, 0⟩,
        ⟨"u6", "p6", false, 0, 0⟩, ⟨"u7", "p7", false, 0, 0⟩,
        ⟨"u8", "p8", false, 0, 0⟩, ⟨"u9", "p9", false, 0, 0⟩],
        false, false, "zz", 0⟩,
       [.capacityExceeded, .delayMs 2000]) :=
  C6_capacity_rejection
    ⟨[⟨"u0", "p0", false, 0, 0⟩, ⟨"u1", "p1", false, 0, 0⟩,
      ⟨"u2", "p2", false, 0, 0⟩, ⟨"u3", "p3", false, 0, 0⟩,
      ⟨"u4", "p4", false, 0, 0⟩, ⟨"u5", "p5", false, 0, 0⟩,
      ⟨"u6", "p6", false, 0, 0⟩, ⟨"u7", "p7", false, 0, 0⟩,
      ⟨"u8", "p8", false, 0, 0⟩, ⟨"u9", "p9", false, 0, 0⟩],
      false, true, "zz", 0⟩ "New" 42 rfl rfl

/-- Claim C7: in every reachable state the registered tag ids are pairwise
distinct, a pending registration's tag id is never already registered (so
completing it cannot create a second entry with an existing tag id), and
after any further event the tag ids are still pairwise distinct. -/
theorem C7_unique_tags (s : TState) (hs : Reachable s) :
    (s.projects.map Project.uid).Nodup ∧
    (s.waitingForProjectName = true → s.newUID ∉ s.projects.map Project.uid) ∧
    (∀ e, ((step s e).1.projects.map Project.uid).Nodup) := by
  have h := reachable_inv s hs
  exact ⟨h.nodup, h.fresh, fun e => (inv_step s e h).nodup⟩

theorem C7_unique_tags_witness :
    ((step ((step boot (.tagScan "aa:bb" 0)).1)
      (.hostLine "Demo" 5)).1.projects.map Project.uid).Nodup ∧
    ((step ((step boot (.tagScan "aa:bb" 0)).1)
        (.hostLine "Demo" 5)).1.waitingForProjectName = true →
      (step ((step boot (.tagScan "aa:bb" 0)).1) (.hostLine "Demo" 5)).1.newUID ∉
        (step ((step boot (.tagScan "aa:bb" 0)).1)
          (.hostLine "Demo" 5)).1.projects.map Project.uid) ∧
    (∀ e, ((step ((step ((step boot (.tagScan "aa:bb" 0)).1)
      (.hostLine "Demo" 5)).1) e).1.projects.map Project.uid).Nodup) :=
  C7_unique_tags _ (Reachable.next _ _ (Reachable.next _ _ Reachable.init))

/-- Claim C8 fails on the code: the admin-mode toggle emits a user-facing
confirmation yet leaves the display-freeze deadline unchanged (the source
blocks with `delay` there instead); only the started/paused transitions set
`displayFreezeUntil = now + 3000`. -/
theorem C8_freeze_counterexample :
    Out.adminToggle true ∈ (step boot (.tagScan "74:8a:71:16" 100)).2 ∧
    ¬(step boot (.tagScan "74:8a:71:16" 100)).1.displayFreezeUntil = 100 + 3000 := by
  decide

/-- Claim C8 (amended): only the project-started and project-paused
transitions set the display-freeze deadline to `now + 3000`; the other
confirmation-emitting transitions (project added, capacity exceeded, admin
toggle, deletion, not-found) leave `displayFreezeUntil` unchanged, holding
their confirmation with a blocking delay instead. -/
theorem C8_freeze_amended (s : TState) (uid raw : String) (now i : Nat) :
    (uid ≠ ADMIN_UID → s.pendingDeletion = false →
      findIdx uid s.projects = some i →
      (step s (.tagScan uid now)).1.displayFreezeUntil = now + 3000) ∧
    (uid = ADMIN_UID →
      (step s (.tagScan uid now)).1.displayFreezeUntil = s.displayFreezeUntil) ∧
    (s.pendingDeletion = true →
      (step s (.tagScan uid now)).1.displayFreezeUntil = s.displayFreezeUntil) ∧
    (uid ≠ ADMIN_UID → s.pendingDeletion = false →
      findIdx uid s.projects = none →
      (step s (.tagScan uid now)).1.displayFreezeUntil = s.displayFreezeUntil) ∧
    (step s (.hostLine raw now)).1.displayFreezeUntil = s.displayFreezeUntil := by
  refine ⟨?_, ?_, ?_, ?_, ?_⟩
  · intro hadm hpd hf
    cases hact : (s.projects.getD i default).active with
    | false => rw [step_tag_start s uid now i hadm hpd hf hact]
    | true => rw [step_tag_pause s uid now i hadm hpd hf hact]
  · intro hadm
    rw [step_tag_admin s uid now hadm]
  · intro hpd
    by_cases hadm : uid = ADMIN_UID
    · rw [step_tag_admin s uid now hadm]
    · cases hf : findIdx uid s.projects with
      | some j => rw [step_tag_delete_found s uid now j hadm hpd hf]
      | none => rw [step_tag_delete_notfound s uid now hadm hpd hf]
  · intro hadm hpd hf
    rw [step_tag_unknown s uid now hadm hpd hf]
  · by_cases hw : s.waitingForProjectName = true
    · by_cases hlen : s.projects.length < MAX_PROJECTS
      · rw [step_hostLine_add s raw now hw hlen]
      · rw [step_hostLine_full s raw now hw hlen]
    · rw [step_hostLine_idle s raw now (by simpa using hw)]

theorem C8_freeze_amended_witness :
    (step ⟨[⟨"11:11", "A", false, 0, 0⟩], false, false, "", 7⟩
      (.tagScan "11:11" 50)).1.displayFreezeUntil = 50 + 3000 ∧
    (step ⟨[⟨"11:11", "A", false, 0, 0⟩], false, false, "", 7⟩
      (.hostLine "x" 50)).1.displayFreezeUntil = 7 := by
  have h := C8_freeze_amended ⟨[⟨"11:11", "A", false, 0, 0⟩], false, false, "", 7⟩
    "11:11" "x" 50 0
  exact ⟨h.1 (by decide) rfl (by decide), h.2.2.2.2⟩

/-- Claim C9: while `waitingForProjectName` is true, a scanned tag is still
processed by the normal tag-handling logic: an admin scan toggles deletion
mode, a known tag (deletion mode off) is started or paused, and an unknown
tag (deletion mode off) overwrites `newUID` — with the system remaining in
the awaiting-name state throughout. -/
theorem C9_scan_while_waiting (s : TState) (uid : String) (now i : Nat)
    (hw : s.waitingForProjectName = true) :
    (uid = ADMIN_UID →
      (step s (.tagScan uid now)).1.pendingDeletion = !s.pendingDeletion ∧
      (step s (.tagScan uid now)).1.waitingForProjectName = true) ∧
    (uid ≠ ADMIN_UID → s.pendingDeletion = false →
      findIdx uid s.projects = some i →
      ((s.projects.getD i default).active = false →
        ((step s (.tagScan uid now)).1.projects.getD i default).active = true ∧
        ((step s (.tagScan uid now)).1.projects.getD i default).startTime = now) ∧
      ((s.projects.getD i default).active = true →
        ((step s (.tagScan uid now)).1.projects.getD i default).active = false ∧
        ((step s (.tagScan uid now)).1.projects.getD i default).accumulated =
          (s.projects.getD i default).accumulated +
            (now - (s.projects.getD i default).startTime)) ∧
      (step s (.tagScan uid now)).1.waitingForProjectName = true) ∧
    (uid ≠ ADMIN_UID → s.pendingDeletion = false →
      findIdx uid s.projects = none →
      (step s (.tagScan uid now)).1.newUID = uid ∧
      (step s (.tagScan uid now)).1.waitingForProjectName = true) := by
  refine ⟨?_, ?_, ?_⟩
  · intro hadm
    rw [step_tag_admin s uid now hadm]
    exact ⟨rfl, hw⟩
  · intro hadm hpd hf
    have hi : i < s.projects.length := findIdx_some_lt uid s.projects i hf
    refine ⟨?_, ?_, ?_⟩
    · intro hact
      rw [step_tag_start s uid now i hadm hpd hf hact]
      have hi' : i < (pauseAll now s.projects).length := by
        rw [length_pauseAll]
        exact hi
      constructor
      · show ((setAt i (startP now) (pauseAll now s.projects)).getD i default).active = true
        rw [getD_setAt_self i (startP now) _ default hi']
        rfl
      · show ((setAt i (startP now)
          (pauseAll now s.projects)).getD i default).startTime = now
        rw [getD_setAt_self i (startP now) _ default hi']
        rfl
    · intro hact
      rw [step_tag_pause s uid now i hadm hpd hf hact]
      constructor
      · show ((setAt i (pauseP now) s.projects).getD i default).active = false
        rw [getD_setAt_self i (pauseP now) _ default hi]
        exact pauseP_active now _
      · show ((setAt i (pauseP now) s.projects).getD i default).accumulated = _
        rw [getD_setAt_self i (pauseP now) _ default hi, pauseP_accumulated, hact]
        simp
    · cases hact : (s.projects.getD i default).active with
      | false =>
        rw [step_tag_start s uid now i hadm hpd hf hact]
        exact hw
      | true =>
        rw [step_tag_pause s uid now i hadm hpd hf hact]
        exact hw
  · intro hadm hpd hf
    rw [step_tag_unknown s uid now hadm hpd hf]
    exact ⟨rfl, rfl⟩

theorem C9_scan_while_waiting_witness :
    ((step (step boot (.tagScan "aa:bb" 0)).1
        (.tagScan "74:8a:71:16" 5)).1.pendingDeletion
      = !(step boot (.tagScan "aa:bb" 0)).1.pendingDeletion ∧
     (step (step boot (.tagScan "aa:bb" 0)).1
        (.tagScan "74:8a:71:16" 5)).1.waitingForProjectName = true) ∧
    ((step (step boot (.tagScan "aa:bb" 0)).1 (.tagScan "bb:cc" 5)).1.newUID = "bb:cc" ∧
     (step (step boot (.tagScan "aa:bb" 0)).1
        (.tagScan "bb:cc" 5)).1.waitingForProjectName = true) := by
  have h1 := C9_scan_while_waiting (step boot (.tagScan "aa:bb" 0)).1
    "74:8a:71:16" 5 0 (by decide)
  have h2 := C9_scan_while_waiting (step boot (.tagScan "aa:bb" 0)).1
    "bb:cc" 5 0 (by decide)
  exact ⟨h1.1 rfl, h2.2.2 (by decide) (by decide) (by decide)⟩

/-! ### Trimming facts for C10 -/

theorem dropWhile_head_not (p : Char → Bool) (l : List Char) (c : Char)
    (h : (l.dropWhile p).head? = some c) : p c = false := by
  induction l with
  | nil => simp [List.dropWhile] at h
  | cons a l ih =>
    simp only [List.dropWhile_cons] at h
    by_cases hp : p a = true
    · rw [if_pos hp] at h
      exact ih h
    · rw [if_neg hp] at h
      simp at h
      rw [← h]
      simpa using hp

theorem getLast_dropWhile (p : Char → Bool) (l : List Char) (c : Char)
    (h : (l.dropWhile p).getLast? = some c) : l.getLast? = some c := by
  induction l with
  | nil => simp [List.dropWhile] at h
  | cons a l ih =>
    simp only [List.dropWhile_cons] at h
    by_cases hp : p a = true
    · rw [if_pos hp] at h
      have h2 := ih h
      cases l with
      | nil => simp at h2
      | cons b l2 =>
        rw [List.getLast?_cons_cons]
        exact h2
    · rw [if_neg hp] at h
      exact h

theorem trimS_head_not_space (raw : String) (c : Char)
    (h : (trimS raw).data.head? = some c) : isSpaceA c = false := by
  unfold trimS at h
  rw [List.head?_reverse
    ((raw.data.dropWhile isSpaceA).reverse.dropWhile isSpaceA)] at h
  have h2 := getLast_dropWhile isSpaceA (raw.data.dropWhile isSpaceA).reverse c h
  rw [List.getLast?_reverse (raw.data.dropWhile isSpaceA)] at h2
  exact dropWhile_head_not isSpaceA raw.data c h2

theorem trimS_getLast_not_space (raw : String) (c : Char)
    (h : (trimS raw).data.getLast? = some c) : isSpaceA c = false := by
  unfold trimS at h
  rw [List.getLast?_reverse
    ((raw.data.dropWhile isSpaceA).reverse.dropWhile isSpaceA)] at h
  exact dropWhile_head_not isSpaceA (raw.data.dropWhile isSpaceA).reverse c h

theorem trimS_all_space (raw : String) (h : raw.data.all isSpaceA = true) :
    trimS raw = "" := by
  apply String.ext
  have h1 : raw.data.dropWhile isSpaceA = [] := by
    rw [List.dropWhile_eq_nil_iff]
    intro x hx
    exact (List.all_eq_true.1 h) x hx
  show ((raw.data.dropWhile isSpaceA).reverse.dropWhile isSpaceA).reverse = ("" : String).data
  rw [h1]
  rfl

/-- Claim C10: a host-supplied line is trimmed of leading and trailing
whitespace (the `isspace` class, including `\r` of a CRLF terminator)
before being stored as the project's name, and a whitespace-only line is
still accepted, registering a project whose name is the empty string. -/
theorem C10_trimmed_name (s : TState) (raw : String) (now : Nat)
    (hw : s.waitingForProjectName = true)
    (hlen : s.projects.length < MAX_PROJECTS) :
    (step s (.hostLine raw now)).1.projects
      = s.projects ++ [⟨s.newUID, trimS raw, false, 0, 0⟩] ∧
    (step s (.hostLine raw now)).1.waitingForProjectName = false ∧
    (∀ c, (trimS raw).data.head? = some c → isSpaceA c = false) ∧
    (∀ c, (trimS raw).data.getLast? = some c → isSpaceA c = false) ∧
    (raw.data.all isSpaceA = true → trimS raw = "") := by
  refine ⟨?_, ?_, fun c => trimS_head_not_space raw c,
    fun c => trimS_getLast_not_space raw c, trimS_all_space raw⟩
  · rw [step_hostLine_add s raw now hw hlen]
  · rw [step_hostLine_add s raw now hw hlen]

theorem C10_trimmed_name_witness :
    (step ⟨[], false, true, "aa:bb", 0⟩ (.hostLine " \t\r" 9)).1.projects
      = [] ++ [⟨"aa:bb", trimS " \t\r", false, 0, 0⟩] ∧
    (step ⟨[], false, true, "aa:bb", 0⟩
      (.hostLine " \t\r" 9)).1.waitingForProjectName = false ∧
    (∀ c, (trimS " \t\r").data.head? = some c → isSpaceA c = false) ∧
    (∀ c, (trimS " \t\r").data.getLast? = some c → isSpaceA c = false) ∧
    (" \t\r".data.all isSpaceA = true → trimS " \t\r" = "") :=
  C10_trimmed_name ⟨[], false, true, "aa:bb", 0⟩ " \t\r" 9 rfl (by decide)

end TimeTagger
